import Mathlib

/-!
Verification of the array-backed binary-heap priority queue in
`custom::priority_queue` (src/unnamed/part_000 and src/priority_queue.h).

The storage (`Container container`) is modelled as a `List T`; the comparator
(`Compare compare`) as a boolean predicate `c : T → T → Bool`.  Every source
access has the shape `container[index - 1]` where `index` is a 1-based heap
index; `nth` captures that idiom.  The repository contains two variants of the
header: `src/unnamed/part_000` (complete) and `src/priority_queue.h` (a draft
whose push/pop bodies are commented out).  Definitions below embed the
complete variant unless their doc comment says otherwise.
-/

set_option maxHeartbeats 1000000

namespace PQVerif

variable {T : Type} [Inhabited T]

/-- Heap-indexed access: the source reads `container[index - 1]` for a 1-based
heap index `index`.  Out-of-range reads (which the source guards against)
return `default`. -/
def nth (l : List T) (i : Nat) : T := (l.get? (i - 1)).getD default

/-- The source's `swap(container[i - 1], container[j - 1])` on storage `l`. -/
def swapH (l : List T) (i j : Nat) : List T :=
  (l.set (i - 1) (nth l j)).set (j - 1) (nth l i)

/-- The default comparator `std::less<T>` instantiated at `T = Nat`. -/
def natLt (a b : Nat) : Bool := decide (a < b)

/-- The larger-child candidate chosen by `percolateDown` in
src/unnamed/part_000 lines 150-157: `indexLeft = 2 * indexHeap`,
`indexRight = indexLeft + 1`, and `indexBigger` is the right child exactly
when it is in bounds and `compare(container[indexLeft-1],
container[indexRight-1])` holds, otherwise the left child. -/
def indexBigger (c : T → T → Bool) (l : List T) (indexHeap : Nat) : Nat :=
  if 2 * indexHeap + 1 ≤ l.length ∧
      c (nth l (2 * indexHeap)) (nth l (2 * indexHeap + 1)) = true then
    2 * indexHeap + 1
  else
    2 * indexHeap

/-- Body of `priority_queue::percolateDown` from src/unnamed/part_000 lines
146-166, with an explicit fuel argument standing for the call stack: the
source recursion is bounded (indices at least double at every recursive call,
see `percolateDown_terminates`), and the wrapper `percolateDown` below always
supplies enough fuel for any 1-based heap index.  The returned boolean is the
source's return value (`true` iff a swap occurred). -/
def percolateDownAux (c : T → T → Bool) : Nat → List T → Nat → List T × Bool
  | 0, l, _ => (l, false)
  | fuel + 1, l, indexHeap =>
    if indexBigger c l indexHeap ≤ l.length ∧
        c (nth l indexHeap) (nth l (indexBigger c l indexHeap)) = true then
      ((percolateDownAux c fuel
          (swapH l indexHeap (indexBigger c l indexHeap))
          (indexBigger c l indexHeap)).1,
       true)
    else
      (l, false)

/-- `priority_queue::percolateDown` (src/unnamed/part_000 lines 146-166). -/
def percolateDown (c : T → T → Bool) (l : List T) (indexHeap : Nat) :
    List T × Bool :=
  percolateDownAux c (l.length + 1) l indexHeap

/-- The start of push's correction walk (src/unnamed/part_000 line 127):
`size_t i = (container.size() + 1) / 2` where `container.size()` is the size
after the `push_back`. -/
def pushStartIndex (newSize : Nat) : Nat := (newSize + 1) / 2

/-- The `while (i > 0 && percolateDown(i)) i /= 2;` loop of
`priority_queue::push` (src/unnamed/part_000 lines 128-129), with fuel for the
halving loop (the wrapper always supplies enough). -/
def pushLoopAux (c : T → T → Bool) : Nat → List T → Nat → List T
  | 0, l, _ => l
  | fuel + 1, l, i =>
    if 0 < i then
      if (percolateDown c l i).2 then
        pushLoopAux c fuel (percolateDown c l i).1 (i / 2)
      else
        (percolateDown c l i).1
    else
      l

/-- `priority_queue::push` (src/unnamed/part_000 lines 123-138): append, then
run the correction loop from `(container.size() + 1) / 2`.  The copy and move
overloads differ only in how the argument is consumed, so both are this one
function on values. -/
def pushPQ (c : T → T → Bool) (l : List T) (t : T) : List T :=
  pushLoopAux c ((l ++ [t]).length + 1) (l ++ [t])
    (pushStartIndex (l ++ [t]).length)

/-- Modelled from the spec: `custom::vector::pop_back` — vector.h is not in
src/.  The spec (section 6) only promises a "remove-last" operation on the
storage collaborator, so it is modelled as defined exactly on non-empty
storage; invoking it on empty storage falls outside the collaborator contract
and is `none`. -/
def vector_pop_back (l : List T) : Option (List T) :=
  if l.length ≠ 0 then some l.dropLast else none

/-- `priority_queue::pop` (src/unnamed/part_000 lines 109-117): swap root and
last element when non-empty, then unconditionally `pop_back`, then
`percolateDown(1)`. -/
def popPQ (c : T → T → Bool) (l : List T) : Option (List T) :=
  match vector_pop_back (if l.length ≠ 0 then swapH l 1 l.length else l) with
  | some l2 => some (percolateDown c l2 1).1
  | none => none

/-- `priority_queue::top` (src/unnamed/part_000 lines 96-103): return
`container.front()` when non-empty, otherwise throw
`std::out_of_range("std:out_of_range")`.  `top` is a const member: it is a
pure function of the storage and returns no modified state. -/
def topPQ (l : List T) : Except String T :=
  if l.length ≠ 0 then Except.ok (nth l 1) else Except.error "std:out_of_range"

/-- The loop of `priority_queue::heapify` (src/unnamed/part_000 lines
172-177): `for (int i = container.size() / 2; i >= 0; i--)
percolateDown(i + 1);`.  `heapifyFrom c i l` runs the iterations with loop
counter values `i - 1, i - 2, ..., 0`, i.e. heap indices `i, i - 1, ..., 1`. -/
def heapifyFrom (c : T → T → Bool) : Nat → List T → List T
  | 0, l => l
  | i + 1, l => heapifyFrom c i (percolateDown c l (i + 1)).1

/-- `priority_queue::heapify` (src/unnamed/part_000 lines 172-177). -/
def heapifyPQ (c : T → T → Bool) (l : List T) : List T :=
  heapifyFrom c (l.length / 2 + 1) l

/-- The heap indices `heapify` passes to `percolateDown`, in loop order:
`size/2 + 1, size/2, ..., 1` (loop counter `i` runs `size/2` down to `0` and
the call is `percolateDown(i + 1)`). -/
def heapifyIndices (n : Nat) : List Nat :=
  ((List.range (n / 2 + 1)).reverse).map (fun k => k + 1)

/-- The max-heap invariant at one node (spec section 3): neither child within
bounds outranks its parent. -/
def HeapAt (c : T → T → Bool) (l : List T) (i : Nat) : Prop :=
  ∀ ch, (ch = 2 * i ∨ ch = 2 * i + 1) → ch ≤ l.length →
    c (nth l i) (nth l ch) = false

/-- The max-heap invariant over the whole buffer: for every valid 1-based heap
index `i` with children `2i` and `2i+1` that exist within bounds,
`compare(element_at(i), element_at(child))` is false for both children. -/
def IsHeap (c : T → T → Bool) (l : List T) : Prop :=
  ∀ i, 1 ≤ i → HeapAt c l i

/-- Executable check of the heap invariant (children of heap indices above
`l.length` are out of bounds, so checking indices `1 .. l.length` suffices). -/
def isHeapB (c : T → T → Bool) (l : List T) : Bool :=
  (List.range l.length).all fun k =>
    ((!decide (2 * (k + 1) ≤ l.length)) ||
      !c (nth l (k + 1)) (nth l (2 * (k + 1)))) &&
    ((!decide (2 * (k + 1) + 1 ≤ l.length)) ||
      !c (nth l (k + 1)) (nth l (2 * (k + 1) + 1)))

/-- `j` lies in the subtree rooted at heap index `r`: some ancestor chain
`j, j/2, j/4, ...` reaches `r`. -/
def inSubtree (r j : Nat) : Prop := ∃ k, j / 2 ^ k = r

/-- The loop of `heapify` in the draft variant src/priority_queue.h lines
191-196: `for (int i = container.size() / 2; i >= 0; i--) percolateDown(i);`
passes the raw loop counter, producing heap indices `size/2, ..., 1, 0`. -/
def heapifyHIndices (n : Nat) : List Nat := (List.range (n / 2 + 1)).reverse

/-- Wrap-around subtraction of `size_t` (64-bit) operands, for the offset
arithmetic `index - 1` in the draft variant. -/
def sub64 (a b : Nat) : Nat := (a + 2 ^ 64 - b % 2 ^ 64) % 2 ^ 64

/-- The storage offsets read by the first comparison of `percolateDown` in the
draft variant src/priority_queue.h lines 160-170 when called with heap index
`i` on storage of size `n`: under the guard `indexRight <= size && indexLeft
<= size` it evaluates `container[indexLeft - 1] < container[indexRight - 1]`,
with `size_t` offset arithmetic. -/
def pdH_reads (n i : Nat) : List Nat :=
  if 2 * i + 1 ≤ n ∧ 2 * i ≤ n then
    [sub64 (2 * i) 1, sub64 (2 * i + 1) 1]
  else
    []

/-! Basic facts about heap-indexed access and swapping. -/

lemma length_swapH (l : List T) (i j : Nat) : (swapH l i j).length = l.length := by
  simp [swapH]

lemma nth_swapH_right (l : List T) (i j : Nat) (hj1 : 1 ≤ j) (hj : j ≤ l.length) :
    nth (swapH l i j) j = nth l i := by
  have h : j - 1 < (l.set (i - 1) (nth l j)).length := by
    rw [List.length_set]; omega
  show (((l.set (i - 1) (nth l j)).set (j - 1) (nth l i)).get? (j - 1)).getD default
      = nth l i
  rw [List.get?_eq_getElem?, List.getElem?_set_self h]
  rfl

lemma nth_swapH_left (l : List T) (i j : Nat) (hi1 : 1 ≤ i) (hi : i ≤ l.length)
    (hj1 : 1 ≤ j) : nth (swapH l i j) i = nth l j := by
  by_cases hij : i = j
  · subst hij
    rw [nth_swapH_right l i i hi1 hi]
  · have h1 : j - 1 ≠ i - 1 := by omega
    have h2 : i - 1 < l.length := by omega
    show (((l.set (i - 1) (nth l j)).set (j - 1) (nth l i)).get? (i - 1)).getD default
        = nth l j
    rw [List.get?_eq_getElem?, List.getElem?_set_ne h1, List.getElem?_set_self h2]
    rfl

lemma nth_swapH_other (l : List T) (i j k : Nat) (hi1 : 1 ≤ i) (hj1 : 1 ≤ j)
    (hk1 : 1 ≤ k) (hki : k ≠ i) (hkj : k ≠ j) :
    nth (swapH l i j) k = nth l k := by
  have h1 : j - 1 ≠ k - 1 := by omega
  have h2 : i - 1 ≠ k - 1 := by omega
  show (((l.set (i - 1) (nth l j)).set (j - 1) (nth l i)).get? (k - 1)).getD default
      = nth l k
  rw [List.get?_eq_getElem?, List.getElem?_set_ne h1, List.getElem?_set_ne h2]
  rw [nth, List.get?_eq_getElem?]

lemma nth_dropLast (l : List T) (k : Nat) (hk1 : 1 ≤ k)
    (hk : k ≤ l.length - 1) : nth l.dropLast k = nth l k := by
  have h : k - 1 < l.length - 1 := by omega
  simp [nth, List.dropLast_eq_take, List.get?_eq_getElem?, List.getElem?_take,
    if_pos h]

/-! Facts about the comparator following from the strict-weak-order contract
`std::less` satisfies: asymmetry and negative transitivity. -/

lemma c_irrefl (c : T → T → Bool) (hA : ∀ a b, c a b = true → c b a = false)
    (a : T) : c a a = false := by
  cases hb : c a a with
  | false => rfl
  | true =>
    have h2 := hA a a hb
    rw [hb] at h2
    exact h2

lemma c_trans (c : T → T → Bool) (hA : ∀ a b, c a b = true → c b a = false)
    (hN : ∀ a b d, c a b = false → c b d = false → c a d = false) :
    ∀ a b d, c a b = true → c b d = true → c a d = true := by
  intro a b d hab hbd
  cases had : c a d with
  | true => rfl
  | false =>
    have hba : c b a = false := hA a b hab
    have : c b d = false := hN b a d hba had
    rw [hbd] at this
    cases this

/-! Facts about the subtree relation on 1-based heap indices. -/

lemma inSubtree_self (r : Nat) : inSubtree r r := ⟨0, by simp⟩

lemma inSubtree_le {r j : Nat} (h : inSubtree r j) : r ≤ j := by
  obtain ⟨k, hk⟩ := h
  have := Nat.div_le_self j (2 ^ k)
  omega

lemma inSubtree_child {i b : Nat} (hb : b = 2 * i ∨ b = 2 * i + 1) :
    inSubtree i b := by
  refine ⟨1, ?_⟩
  rw [pow_one]
  rcases hb with h | h <;> subst h <;> omega

lemma inSubtree_trans {i j k : Nat} (h1 : inSubtree i j) (h2 : inSubtree j k) :
    inSubtree i k := by
  obtain ⟨a, ha⟩ := h1
  obtain ⟨b, hb⟩ := h2
  refine ⟨b + a, ?_⟩
  rw [pow_add, ← Nat.div_div_eq_div_mul, hb, ha]

lemma inSubtree_step {b j : Nat} (h : inSubtree b j) (hne : j ≠ b) :
    2 * b ≤ j ∧ (inSubtree (2 * b) j ∨ inSubtree (2 * b + 1) j) := by
  obtain ⟨k, hk⟩ := h
  cases k with
  | zero =>
    simp at hk
    exact absurd hk hne
  | succ k =>
    have hp : j / 2 ^ k / 2 = b := by
      rw [Nat.div_div_eq_div_mul, ← pow_succ, hk]
    have hsub : inSubtree (j / 2 ^ k) j := ⟨k, rfl⟩
    have hple := inSubtree_le hsub
    have hcase : j / 2 ^ k = 2 * b ∨ j / 2 ^ k = 2 * b + 1 := by omega
    refine ⟨by omega, ?_⟩
    rcases hcase with h | h
    · exact Or.inl (h ▸ hsub)
    · exact Or.inr (h ▸ hsub)

lemma inSubtree_children_disjoint {i j : Nat} (hi : 1 ≤ i)
    (h1 : inSubtree (2 * i) j) (h2 : inSubtree (2 * i + 1) j) : False := by
  obtain ⟨a, ha⟩ := h1
  obtain ⟨b, hb⟩ := h2
  rcases Nat.lt_trichotomy a b with h | h | h
  · have heq : j / 2 ^ b = 2 * i / 2 ^ (b - a) := by
      rw [← ha, Nat.div_div_eq_div_mul, ← pow_add]
      congr 2
      omega
    have hle : 2 * i / 2 ^ (b - a) ≤ 2 * i / 2 := by
      exact Nat.div_le_div_left (by
        have h2 : (2 : Nat) ^ 1 ≤ 2 ^ (b - a) :=
          Nat.pow_le_pow_right (by omega) (by omega)
        simpa using h2) (by omega)
    have h3 : j / 2 ^ b ≤ 2 * i / 2 := by
      rw [heq]
      exact hle
    rw [hb] at h3
    omega
  · rw [h] at ha
    rw [ha] at hb
    omega
  · have heq : j / 2 ^ a = (2 * i + 1) / 2 ^ (a - b) := by
      rw [← hb, Nat.div_div_eq_div_mul, ← pow_add]
      congr 2
      omega
    have hle : (2 * i + 1) / 2 ^ (a - b) ≤ (2 * i + 1) / 2 := by
      exact Nat.div_le_div_left (by
        have h2 : (2 : Nat) ^ 1 ≤ 2 ^ (a - b) :=
          Nat.pow_le_pow_right (by omega) (by omega)
        simpa using h2) (by omega)
    have h3 : j / 2 ^ a ≤ (2 * i + 1) / 2 := by
      rw [heq]
      exact hle
    rw [ha] at h3
    omega

lemma not_inSubtree_of_lt {b j : Nat} (h : j < b) : ¬ inSubtree b j :=
  fun hs => absurd (inSubtree_le hs) (by omega)

lemma inSubtree_one {j : Nat} (hj : 1 ≤ j) : inSubtree 1 j := by
  induction j using Nat.strong_induction_on with
  | _ j ih =>
    by_cases h1 : j = 1
    · subst h1
      exact inSubtree_self 1
    · have h2 : 2 ≤ j := by omega
      obtain ⟨k, hk⟩ := ih (j / 2) (by omega) (by omega)
      refine ⟨k + 1, ?_⟩
      rw [pow_succ, Nat.mul_comm, ← Nat.div_div_eq_div_mul, hk]

lemma inSubtree_parent {b ch : Nat} (h : inSubtree b ch) (hne : ch ≠ b) :
    inSubtree b (ch / 2) := by
  obtain ⟨k, hk⟩ := h
  cases k with
  | zero =>
    simp at hk
    exact absurd hk hne
  | succ k =>
    refine ⟨k, ?_⟩
    rw [Nat.div_div_eq_div_mul, show 2 * 2 ^ k = 2 ^ (k + 1) by
      rw [pow_succ, Nat.mul_comm]]
    exact hk

/-- In a buffer whose subtree rooted at `r` satisfies the heap property at
every node, the root value dominates every value in the subtree. -/
lemma root_dominates (c : T → T → Bool)
    (hA : ∀ a b, c a b = true → c b a = false)
    (hN : ∀ a b d, c a b = false → c b d = false → c a d = false) :
    ∀ k (l : List T) r j, 1 ≤ r → j / 2 ^ k = r →
      (∀ q, inSubtree r q → HeapAt c l q) →
      j ≤ l.length → c (nth l r) (nth l j) = false := by
  intro k
  induction k with
  | zero =>
    intro l r j hr hj hheap hlen
    simp at hj
    subst hj
    exact c_irrefl c hA _
  | succ k ih =>
    intro l r j hr hj hheap hlen
    have hp : j / 2 / 2 ^ k = r := by
      rw [Nat.div_div_eq_div_mul, show 2 * 2 ^ k = 2 ^ (k + 1) by
        rw [pow_succ, Nat.mul_comm]]
      exact hj
    have hj2 : 2 ^ (k + 1) ≤ j := by
      rw [← hj] at hr
      exact (Nat.one_le_div_iff (pow_pos (by omega) _)).mp hr
    have hj2b : 2 ≤ j := by
      have h2 : (2 : Nat) ^ 1 ≤ 2 ^ (k + 1) := Nat.pow_le_pow_right (by omega) (by omega)
      simp at h2
      omega
    have hrp : c (nth l r) (nth l (j / 2)) = false :=
      ih l r (j / 2) hr hp hheap (le_trans (Nat.div_le_self j 2) hlen)
    have hpj : c (nth l (j / 2)) (nth l j) = false := by
      have hmem : inSubtree r (j / 2) := ⟨k, hp⟩
      exact hheap (j / 2) hmem j (by omega) hlen
    exact hN _ _ _ hrp hpj

/-- Main specification of `percolateDown` (src/unnamed/part_000): called on a
1-based index `i` whose strict subtree already satisfies the heap property,
with enough fuel (`l.length < 2 ^ fuel * i`), it preserves the length,
touches only positions inside the subtree of `i`, establishes the heap
property on the whole subtree of `i`, and maps subtree values dominated by
any fixed `x` to subtree values dominated by `x`. -/
lemma percolateDownAux_spec (c : T → T → Bool)
    (hA : ∀ a b, c a b = true → c b a = false)
    (hN : ∀ a b d, c a b = false → c b d = false → c a d = false) :
    ∀ fuel (l : List T) i, 1 ≤ i → l.length < 2 ^ fuel * i →
      (∀ j, inSubtree i j → j ≠ i → HeapAt c l j) →
      (percolateDownAux c fuel l i).1.length = l.length ∧
      (∀ k, 1 ≤ k → ¬ inSubtree i k →
        nth (percolateDownAux c fuel l i).1 k = nth l k) ∧
      (∀ j, inSubtree i j → HeapAt c (percolateDownAux c fuel l i).1 j) ∧
      (∀ x, (∀ j, inSubtree i j → j ≤ l.length → c x (nth l j) = false) →
        ∀ j, inSubtree i j → j ≤ l.length →
          c x (nth (percolateDownAux c fuel l i).1 j) = false) := by
  intro fuel
  induction fuel with
  | zero =>
    intro l i hi hfuel hpre
    have hres : (percolateDownAux c 0 l i).1 = l := rfl
    rw [hres]
    have hni : l.length < i := by simpa using hfuel
    refine ⟨rfl, fun k _ _ => rfl, ?_, fun x hx j hj hjl => hx j hj hjl⟩
    intro j hj
    by_cases hji : j = i
    · subst hji
      intro ch hch hchle
      exfalso
      rcases hch with h | h <;> omega
    · exact hpre j hj hji
  | succ fuel ih =>
    intro l i hi hfuel hpre
    obtain ⟨b, hbdef⟩ : ∃ b, indexBigger c l i = b := ⟨_, rfl⟩
    have hbcases : (b = 2 * i + 1 ∧ 2 * i + 1 ≤ l.length ∧
        c (nth l (2 * i)) (nth l (2 * i + 1)) = true) ∨
        (b = 2 * i ∧ ¬ (2 * i + 1 ≤ l.length ∧
          c (nth l (2 * i)) (nth l (2 * i + 1)) = true)) := by
      rw [indexBigger] at hbdef
      by_cases hcond : 2 * i + 1 ≤ l.length ∧
          c (nth l (2 * i)) (nth l (2 * i + 1)) = true
      · rw [if_pos hcond] at hbdef
        exact Or.inl ⟨hbdef.symm, hcond⟩
      · rw [if_neg hcond] at hbdef
        exact Or.inr ⟨hbdef.symm, hcond⟩
    have hb_child : b = 2 * i ∨ b = 2 * i + 1 := by
      rcases hbcases with ⟨h, _⟩ | ⟨h, _⟩
      · exact Or.inr h
      · exact Or.inl h
    have hib2 : i < b := by rcases hb_child with h | h <;> omega
    have hbsub : inSubtree i b := inSubtree_child hb_child
    have hunfold : percolateDownAux c (fuel + 1) l i =
        if b ≤ l.length ∧ c (nth l i) (nth l b) = true then
          ((percolateDownAux c fuel (swapH l i b) b).1, true)
        else (l, false) := by
      rw [← hbdef]
      rfl
    by_cases hg : b ≤ l.length ∧ c (nth l i) (nth l b) = true
    · -- a swap occurs: recurse at the candidate
      obtain ⟨hbn, hib⟩ := hg
      have hres : (percolateDownAux c (fuel + 1) l i).1 =
          (percolateDownAux c fuel (swapH l i b) b).1 := by
        rw [hunfold, if_pos ⟨hbn, hib⟩]
      rw [hres]
      have hlen1 : (swapH l i b).length = l.length := length_swapH l i b
      have hnth_b : nth (swapH l i b) b = nth l i :=
        nth_swapH_right l i b (by omega) hbn
      have hnth_i : nth (swapH l i b) i = nth l b :=
        nth_swapH_left l i b hi (by omega) (by omega)
      have hnth_other : ∀ k, 1 ≤ k → k ≠ i → k ≠ b →
          nth (swapH l i b) k = nth l k := fun k hk hki hkb =>
        nth_swapH_other l i b k hi (by omega) hk hki hkb
      have hpre1 : ∀ j, inSubtree b j → j ≠ b → HeapAt c (swapH l i b) j := by
        intro j hj hjb
        have hjge := (inSubtree_step hj hjb).1
        have hji : j ≠ i := by omega
        have hHl : HeapAt c l j := hpre j (inSubtree_trans hbsub hj) hji
        intro ch hch hchle
        rw [hlen1] at hchle
        have hch_i : ch ≠ i := by rcases hch with h | h <;> omega
        have hch_b : ch ≠ b := by rcases hch with h | h <;> omega
        rw [hnth_other j (by omega) hji hjb,
          hnth_other ch (by rcases hch with h | h <;> omega) hch_i hch_b]
        exact hHl ch hch hchle
      have hfuel1 : (swapH l i b).length < 2 ^ fuel * b := by
        rw [hlen1]
        calc l.length < 2 ^ (fuel + 1) * i := hfuel
          _ = 2 ^ fuel * (2 * i) := by ring
          _ ≤ 2 ^ fuel * b := Nat.mul_le_mul_left _ (by omega)
      obtain ⟨ihlen, ihframe, ihheap, ihdom⟩ :=
        ih (swapH l i b) b (by omega) hfuel1 hpre1
      have hri : nth (percolateDownAux c fuel (swapH l i b) b).1 i = nth l b := by
        rw [ihframe i (by omega) (not_inSubtree_of_lt hib2), hnth_i]
      have hdomb : ∀ j, inSubtree b j → j ≤ (swapH l i b).length →
          c (nth l b) (nth (swapH l i b) j) = false := by
        intro j hj hjl
        by_cases hjb : j = b
        · subst hjb
          rw [hnth_b]
          exact hA _ _ hib
        · have hj2 := (inSubtree_step hj hjb).1
          rw [hnth_other j (by omega) (by omega) hjb]
          obtain ⟨k, hk⟩ := hj
          refine root_dominates c hA hN k l b j (by omega) hk ?_
            (by rw [hlen1] at hjl; exact hjl)
          intro q hq
          have hqge := inSubtree_le hq
          exact hpre q (inSubtree_trans hbsub hq) (by omega)
      have hdomb2 : ∀ j, inSubtree b j → j ≤ (swapH l i b).length →
          c (nth l b) (nth (percolateDownAux c fuel (swapH l i b) b).1 j) = false :=
        ihdom (nth l b) hdomb
      refine ⟨ihlen.trans hlen1, ?_, ?_, ?_⟩
      · -- frame outside the subtree of i
        intro k hk hknot
        have hknotb : ¬ inSubtree b k := fun h =>
          hknot (inSubtree_trans hbsub h)
        have hki : k ≠ i := fun h => hknot (h ▸ inSubtree_self i)
        have hkb : k ≠ b := fun h => hknot (h ▸ hbsub)
        rw [ihframe k hk hknotb, hnth_other k hk hki hkb]
      · -- heap property on the whole subtree of i
        intro j hj
        by_cases hjb : inSubtree b j
        · exact ihheap j hjb
        · by_cases hji : j = i
          · subst j
            intro ch hch hchle
            rw [ihlen, hlen1] at hchle
            rw [hri]
            by_cases hchb : ch = b
            · subst hchb
              exact hdomb2 ch (inSubtree_self _) (by rw [hlen1]; exact hchle)
            · have hch1 : 1 ≤ ch := by rcases hch with h | h <;> omega
              have hchsub : ¬ inSubtree b ch := by
                intro hcs
                rcases hb_child with hb1 | hb1 <;> rcases hch with hc1 | hc1
                · exact hchb (by omega)
                · exact inSubtree_children_disjoint hi (hb1 ▸ hcs)
                    (hc1 ▸ inSubtree_self _)
                · exact inSubtree_children_disjoint hi (hc1 ▸ inSubtree_self _)
                    (hb1 ▸ hcs)
                · exact hchb (by omega)
              rw [ihframe ch hch1 hchsub,
                hnth_other ch hch1 (by omega) hchb]
              rcases hb_child with hb1 | hb1
              · -- candidate is the left child, so ch is the right child and
                -- the selection comparison was false
                have hchR : ch = 2 * i + 1 := by rcases hch with h | h <;> omega
                rcases hbcases with ⟨hb2, _⟩ | ⟨_, hsel⟩
                · omega
                · subst hchR
                  subst hb1
                  cases hc : c (nth l (2 * i)) (nth l (2 * i + 1)) with
                  | false => rfl
                  | true => exact absurd ⟨hchle, hc⟩ hsel
              · -- candidate is the right child, so ch is the left child and
                -- the selection comparison was true
                have hchL : ch = 2 * i := by rcases hch with h | h <;> omega
                rcases hbcases with ⟨_, _, hsel⟩ | ⟨hb2, _⟩
                · subst hchL
                  subst hb1
                  exact hA _ _ hsel
                · omega
          · -- untouched sibling region
            have hj1 : 1 ≤ j := by have := inSubtree_le hj; omega
            have hjstep := (inSubtree_step hj hji).1
            have hjb2 : j ≠ b := fun h => hjb (h ▸ inSubtree_self b)
            intro ch hch hchle
            rw [ihlen, hlen1] at hchle
            have hch1 : 1 ≤ ch := by rcases hch with h | h <;> omega
            have hch_nb : ¬ inSubtree b ch := by
              intro hcs
              have hchb : ch ≠ b := by
                rcases hb_child with hb1 | hb1 <;> rcases hch with hc1 | hc1 <;>
                  omega
              have hparent := inSubtree_parent hcs hchb
              have hchp : ch / 2 = j := by rcases hch with hc1 | hc1 <;> omega
              rw [hchp] at hparent
              exact hjb hparent
            rw [ihframe j hj1 hjb, hnth_other j hj1 hji hjb2,
              ihframe ch hch1 hch_nb,
              hnth_other ch hch1 (by omega) (by
                intro hcb
                exact hch_nb (hcb ▸ inSubtree_self b))]
            exact hpre j hj hji ch hch hchle
      · -- dominance transfer
        intro x hx j hj hjl
        by_cases hjb : inSubtree b j
        · refine ihdom x ?_ j hjb (by rw [hlen1]; exact hjl)
          intro q hq hql
          by_cases hqb : q = b
          · subst hqb
            rw [hnth_b]
            exact hx i (inSubtree_self i) (by omega)
          · have hq2 := (inSubtree_step hq hqb).1
            rw [hnth_other q (by omega) (by omega) hqb]
            exact hx q (inSubtree_trans hbsub hq) (by rw [hlen1] at hql; exact hql)
        · by_cases hji : j = i
          · subst j
            rw [hri]
            exact hx b hbsub hbn
          · have hj1 : 1 ≤ j := by have := inSubtree_le hj; omega
            have hjb2 : j ≠ b := fun h => hjb (h ▸ inSubtree_self b)
            rw [ihframe j hj1 hjb, hnth_other j hj1 hji hjb2]
            exact hx j hj hjl
    · -- no swap: the buffer is returned unchanged and the node is in order
      have hres : (percolateDownAux c (fuel + 1) l i).1 = l := by
        rw [hunfold, if_neg hg]
      rw [hres]
      refine ⟨rfl, fun k _ _ => rfl, ?_, fun x hx j hj hjl => hx j hj hjl⟩
      intro j hj
      by_cases hji : j = i
      · subst j
        intro ch hch hchle
        rcases hbcases with ⟨hbR, hRn, hLR⟩ | ⟨hbL, hsel⟩
        · -- candidate was the right child and did not outrank the parent
          have hIR : c (nth l i) (nth l (2 * i + 1)) = false := by
            cases hc : c (nth l i) (nth l (2 * i + 1)) with
            | false => rfl
            | true => exact absurd ⟨by omega, by rw [hbR]; exact hc⟩ hg
          rcases hch with hcL | hcR
          · subst hcL
            cases hc : c (nth l i) (nth l (2 * i)) with
            | false => rfl
            | true =>
              have htr := c_trans c hA hN _ _ _ hc hLR
              rw [htr] at hIR
              cases hIR
          · subst hcR
            exact hIR
        · -- candidate was the left child
          rcases hch with hcL | hcR
          · subst hcL
            cases hc : c (nth l i) (nth l (2 * i)) with
            | false => rfl
            | true => exact absurd ⟨by omega, by rw [hbL]; exact hc⟩ hg
          · subst hcR
            -- the right child exists, so the selection comparison was false
            have hLRf : c (nth l (2 * i)) (nth l (2 * i + 1)) = false := by
              cases hc : c (nth l (2 * i)) (nth l (2 * i + 1)) with
              | false => rfl
              | true => exact absurd ⟨hchle, hc⟩ hsel
            have hILf : c (nth l i) (nth l (2 * i)) = false := by
              cases hc : c (nth l i) (nth l (2 * i)) with
              | false => rfl
              | true => exact absurd ⟨by omega, by rw [hbL]; exact hc⟩ hg
            exact hN _ _ _ hILf hLRf
      · exact hpre j hj hji

lemma percolateDownAux_length (c : T → T → Bool) :
    ∀ fuel (l : List T) i,
      (percolateDownAux c fuel l i).1.length = l.length := by
  intro fuel
  induction fuel with
  | zero => intro l i; rfl
  | succ fuel ih =>
    intro l i
    have hunfold : percolateDownAux c (fuel + 1) l i =
        if indexBigger c l i ≤ l.length ∧
            c (nth l i) (nth l (indexBigger c l i)) = true then
          ((percolateDownAux c fuel (swapH l i (indexBigger c l i))
            (indexBigger c l i)).1, true)
        else (l, false) := rfl
    rw [hunfold]
    by_cases hg : indexBigger c l i ≤ l.length ∧
        c (nth l i) (nth l (indexBigger c l i)) = true
    · rw [if_pos hg]
      show (percolateDownAux c fuel (swapH l i (indexBigger c l i))
        (indexBigger c l i)).1.length = l.length
      rw [ih, length_swapH]
    · rw [if_neg hg]

lemma indexBigger_ge (c : T → T → Bool) (l : List T) (i : Nat) :
    2 * i ≤ indexBigger c l i := by
  rw [indexBigger]
  split <;> omega

lemma indexBigger_choices (c : T → T → Bool) (l : List T) (i : Nat) :
    indexBigger c l i = 2 * i ∨ indexBigger c l i = 2 * i + 1 := by
  rw [indexBigger]
  split
  · exact Or.inr rfl
  · exact Or.inl rfl

/-- Any two sufficient fuel values give the same result; sufficient means
`l.length < 2 ^ fuel * i`, i.e. fuel at least the height of the subtree of
`i`, since indices at least double along the recursion. -/
lemma percolateDownAux_fuel (c : T → T → Bool) :
    ∀ f1 f2 (l : List T) i, 1 ≤ i → l.length < 2 ^ f1 * i →
      l.length < 2 ^ f2 * i →
      percolateDownAux c f1 l i = percolateDownAux c f2 l i := by
  intro f1
  induction f1 with
  | zero =>
    intro f2 l i hi h1 h2
    have hni : l.length < i := by simpa using h1
    cases f2 with
    | zero => rfl
    | succ f2 =>
      have hb := indexBigger_ge c l i
      have hunfold : percolateDownAux c (f2 + 1) l i =
          if indexBigger c l i ≤ l.length ∧
              c (nth l i) (nth l (indexBigger c l i)) = true then
            ((percolateDownAux c f2 (swapH l i (indexBigger c l i))
              (indexBigger c l i)).1, true)
          else (l, false) := rfl
      rw [hunfold, if_neg]
      · rfl
      · rintro ⟨hle, _⟩
        omega
  | succ f1 ih =>
    intro f2 l i hi h1 h2
    cases f2 with
    | zero =>
      have hni : l.length < i := by simpa using h2
      have hb := indexBigger_ge c l i
      have hunfold : percolateDownAux c (f1 + 1) l i =
          if indexBigger c l i ≤ l.length ∧
              c (nth l i) (nth l (indexBigger c l i)) = true then
            ((percolateDownAux c f1 (swapH l i (indexBigger c l i))
              (indexBigger c l i)).1, true)
          else (l, false) := rfl
      rw [hunfold, if_neg]
      · rfl
      · rintro ⟨hle, _⟩
        omega
    | succ f2 =>
      have hunfold1 : percolateDownAux c (f1 + 1) l i =
          if indexBigger c l i ≤ l.length ∧
              c (nth l i) (nth l (indexBigger c l i)) = true then
            ((percolateDownAux c f1 (swapH l i (indexBigger c l i))
              (indexBigger c l i)).1, true)
          else (l, false) := rfl
      have hunfold2 : percolateDownAux c (f2 + 1) l i =
          if indexBigger c l i ≤ l.length ∧
              c (nth l i) (nth l (indexBigger c l i)) = true then
            ((percolateDownAux c f2 (swapH l i (indexBigger c l i))
              (indexBigger c l i)).1, true)
          else (l, false) := rfl
      rw [hunfold1, hunfold2]
      by_cases hg : indexBigger c l i ≤ l.length ∧
          c (nth l i) (nth l (indexBigger c l i)) = true
      · rw [if_pos hg, if_pos hg]
        have hb := indexBigger_ge c l i
        have hbound : ∀ f, l.length < 2 ^ (f + 1) * i →
            (swapH l i (indexBigger c l i)).length <
              2 ^ f * indexBigger c l i := by
          intro f hf
          rw [length_swapH]
          calc l.length < 2 ^ (f + 1) * i := hf
            _ = 2 ^ f * (2 * i) := by ring
            _ ≤ 2 ^ f * indexBigger c l i := Nat.mul_le_mul_left _ hb
        have heq := ih f2 (swapH l i (indexBigger c l i)) (indexBigger c l i)
          (by omega) (hbound f1 h1) (hbound f2 h2)
        rw [heq]
      · rw [if_neg hg, if_neg hg]

/-- On a buffer already satisfying the heap invariant, `percolateDown` swaps
nothing and reports no change. -/
lemma percolateDown_noop_of_heap (c : T → T → Bool) (l : List T) (i : Nat)
    (hi : 1 ≤ i) (hh : IsHeap c l) : percolateDown c l i = (l, false) := by
  rw [percolateDown]
  have hunfold : percolateDownAux c (l.length + 1) l i =
      if indexBigger c l i ≤ l.length ∧
          c (nth l i) (nth l (indexBigger c l i)) = true then
        ((percolateDownAux c l.length (swapH l i (indexBigger c l i))
          (indexBigger c l i)).1, true)
      else (l, false) := rfl
  rw [hunfold, if_neg]
  rintro ⟨hbn, hib⟩
  have hfalse := hh i hi (indexBigger c l i) (indexBigger_choices c l i) hbn
  rw [hib] at hfalse
  cases hfalse

/-- Invariant of the heapify loop: once every heap index above the remaining
loop range satisfies the heap property, running the loop down to index 1
establishes it everywhere. -/
lemma heapifyFrom_heap (c : T → T → Bool)
    (hA : ∀ a b, c a b = true → c b a = false)
    (hN : ∀ a b d, c a b = false → c b d = false → c a d = false) :
    ∀ i (l : List T), (∀ j, i + 1 ≤ j → HeapAt c l j) →
      (heapifyFrom c i l).length = l.length ∧
      (∀ j, 1 ≤ j → HeapAt c (heapifyFrom c i l) j) := by
  intro i
  induction i with
  | zero =>
    intro l hprev
    exact ⟨rfl, fun j hj => hprev j (by omega)⟩
  | succ i ih =>
    intro l hprev
    have hfuel : l.length < 2 ^ (l.length + 1) * (i + 1) := by
      have h2 := Nat.lt_two_pow l.length
      have h3 : (2 : Nat) ^ l.length ≤ 2 ^ (l.length + 1) :=
        Nat.pow_le_pow_right (by omega) (by omega)
      have h4 : (2 : Nat) ^ (l.length + 1) * 1 ≤ 2 ^ (l.length + 1) * (i + 1) :=
        Nat.mul_le_mul_left _ (by omega)
      omega
    have hpre : ∀ j, inSubtree (i + 1) j → j ≠ i + 1 → HeapAt c l j := by
      intro j hj hji
      have hjge := (inSubtree_step hj hji).1
      exact hprev j (by omega)
    obtain ⟨slen, sframe, sheap, _⟩ :=
      percolateDownAux_spec c hA hN (l.length + 1) l (i + 1) (by omega)
        hfuel hpre
    have hpre1 : ∀ j, i + 1 ≤ j →
        HeapAt c (percolateDown c l (i + 1)).1 j := by
      intro j hj
      by_cases hjs : inSubtree (i + 1) j
      · exact sheap j hjs
      · have hji : j ≠ i + 1 := fun h => hjs (h ▸ inSubtree_self _)
        intro ch hch hchle
        rw [percolateDown] at hchle ⊢
        rw [slen] at hchle
        have hch1 : 1 ≤ ch := by rcases hch with h | h <;> omega
        have hch_ns : ¬ inSubtree (i + 1) ch := by
          intro hcs
          have hchne : ch ≠ i + 1 := by rcases hch with h | h <;> omega
          have hparent := inSubtree_parent hcs hchne
          have hchp : ch / 2 = j := by rcases hch with h | h <;> omega
          rw [hchp] at hparent
          exact hjs hparent
        rw [sframe j (by omega) hjs, sframe ch hch1 hch_ns]
        exact hprev j (by omega) ch hch hchle
    obtain ⟨ihlen, ihheap⟩ := ih (percolateDown c l (i + 1)).1 hpre1
    refine ⟨?_, ihheap⟩
    show (heapifyFrom c i (percolateDown c l (i + 1)).1).length = l.length
    rw [ihlen, percolateDown, slen]

lemma heapify_correct_core (c : T → T → Bool)
    (hA : ∀ a b, c a b = true → c b a = false)
    (hN : ∀ a b d, c a b = false → c b d = false → c a d = false)
    (l : List T) :
    (heapifyPQ c l).length = l.length ∧ IsHeap c (heapifyPQ c l) := by
  have hbase : ∀ j, l.length / 2 + 1 + 1 ≤ j → HeapAt c l j := by
    intro j hj ch hch hchle
    exfalso
    rcases hch with h | h <;> omega
  obtain ⟨h1, h2⟩ := heapifyFrom_heap c hA hN (l.length / 2 + 1) l hbase
  exact ⟨h1, fun i hi => h2 i hi⟩

lemma heapifyFrom_foldl (c : T → T → Bool) :
    ∀ i (l : List T), heapifyFrom c i l =
      (((List.range i).reverse).map (fun k => k + 1)).foldl
        (fun acc k => (percolateDown c acc k).1) l := by
  intro i
  induction i with
  | zero => intro l; rfl
  | succ i ih =>
    intro l
    show heapifyFrom c i (percolateDown c l (i + 1)).1 = _
    rw [ih]
    simp only [List.range_succ, List.reverse_append, List.reverse_cons,
      List.reverse_nil, List.nil_append, List.singleton_append, List.map_cons,
      List.foldl_cons]

lemma heapifyFrom_noop (c : T → T → Bool) (l : List T) (hh : IsHeap c l) :
    ∀ i, heapifyFrom c i l = l := by
  intro i
  induction i with
  | zero => rfl
  | succ i ih =>
    show heapifyFrom c i (percolateDown c l (i + 1)).1 = l
    rw [percolateDown_noop_of_heap c l (i + 1) (by omega) hh]
    exact ih

/-! The executable heap check agrees with the invariant. -/

lemma isHeapB_iff (c : T → T → Bool) (l : List T) :
    isHeapB c l = true ↔ IsHeap c l := by
  rw [isHeapB, List.all_eq_true]
  constructor
  · intro h i hi ch hch hchle
    have hch2 : 2 ≤ ch := by omega
    have hilt : i - 1 < l.length := by omega
    have hmem := h (i - 1) (by rw [List.mem_range]; exact hilt)
    have hi1 : i - 1 + 1 = i := by omega
    rw [hi1] at hmem
    simp only [Bool.and_eq_true, Bool.or_eq_true, Bool.not_eq_true',
      decide_eq_false_iff_not, Bool.not_eq_true] at hmem
    rcases hch with h2 | h2 <;> subst h2
    · rcases hmem.1 with hcontra | hfalse
      · omega
      · exact hfalse
    · rcases hmem.2 with hcontra | hfalse
      · omega
      · exact hfalse
  · intro h k hk
    rw [List.mem_range] at hk
    simp only [Bool.and_eq_true, Bool.or_eq_true, Bool.not_eq_true',
      decide_eq_false_iff_not, Bool.not_eq_true]
    constructor
    · by_cases hb : 2 * (k + 1) ≤ l.length
      · exact Or.inr (h (k + 1) (by omega) (2 * (k + 1)) (Or.inl rfl) hb)
      · exact Or.inl hb
    · by_cases hb : 2 * (k + 1) + 1 ≤ l.length
      · exact Or.inr (h (k + 1) (by omega) (2 * (k + 1) + 1) (Or.inr rfl) hb)
      · exact Or.inl hb

/-! The default comparator on `Nat` satisfies the strict-weak-order
contract. -/

lemma natLt_asymm : ∀ a b : Nat, natLt a b = true → natLt b a = false := by
  intro a b h
  simp [natLt] at h ⊢
  omega

lemma natLt_negtrans : ∀ a b d : Nat,
    natLt a b = false → natLt b d = false → natLt a d = false := by
  intro a b d h1 h2
  simp [natLt] at h1 h2 ⊢
  omega

/-- C2: on a non-empty queue satisfying the max-heap invariant (comparator a
strict weak order: asymmetric and negatively transitive), `pop` exchanges the
root with the last element, removes the now-last slot, and percolates the new
root downward; the size decreases by exactly one and the heap invariant holds
over the remaining buffer. -/
theorem pop_spec (c : T → T → Bool)
    (hA : ∀ a b, c a b = true → c b a = false)
    (hN : ∀ a b d, c a b = false → c b d = false → c a d = false)
    (l : List T) (hne : l.length ≠ 0) (hh : IsHeap c l) :
    popPQ c l = some ((percolateDown c ((swapH l 1 l.length).dropLast) 1).1) ∧
    ((percolateDown c ((swapH l 1 l.length).dropLast) 1).1).length =
      l.length - 1 ∧
    IsHeap c ((percolateDown c ((swapH l 1 l.length).dropLast) 1).1) := by
  have hpb : vector_pop_back (if l.length ≠ 0 then swapH l 1 l.length else l) =
      some ((swapH l 1 l.length).dropLast) := by
    rw [if_pos hne]
    unfold vector_pop_back
    rw [if_pos (show (swapH l 1 l.length).length ≠ 0 by
      rw [length_swapH]; exact hne)]
  have h1 : popPQ c l =
      some ((percolateDown c ((swapH l 1 l.length).dropLast) 1).1) := by
    unfold popPQ
    rw [hpb]
  have hlen2 : ((swapH l 1 l.length).dropLast).length = l.length - 1 := by
    rw [List.length_dropLast, length_swapH]
  have hpre : ∀ j, inSubtree 1 j → j ≠ 1 →
      HeapAt c ((swapH l 1 l.length).dropLast) j := by
    intro j hj hj1
    have hj2 : 2 ≤ j := by
      have := (inSubtree_step hj hj1).1
      omega
    intro ch hch hchle
    rw [hlen2] at hchle
    have hch2j : 2 * j ≤ ch := by rcases hch with h | h <;> omega
    rw [nth_dropLast _ j (by omega) (by rw [length_swapH]; omega),
      nth_dropLast _ ch (by omega) (by rw [length_swapH]; omega),
      nth_swapH_other l 1 l.length j (by omega) (by omega) (by omega)
        (by omega) (by omega),
      nth_swapH_other l 1 l.length ch (by omega) (by omega) (by omega)
        (by omega) (by omega)]
    exact hh j (by omega) ch hch (by omega)
  have hfuel : ((swapH l 1 l.length).dropLast).length <
      2 ^ (((swapH l 1 l.length).dropLast).length + 1) * 1 := by
    have h2 := Nat.lt_two_pow ((swapH l 1 l.length).dropLast).length
    have h3 : (2 : Nat) ^ ((swapH l 1 l.length).dropLast).length ≤
        2 ^ (((swapH l 1 l.length).dropLast).length + 1) :=
      Nat.pow_le_pow_right (by omega) (by omega)
    omega
  obtain ⟨slen, _, sheap, _⟩ := percolateDownAux_spec c hA hN
    (((swapH l 1 l.length).dropLast).length + 1)
    ((swapH l 1 l.length).dropLast) 1 (by omega) hfuel hpre
  refine ⟨h1, ?_, ?_⟩
  · show (percolateDownAux c (((swapH l 1 l.length).dropLast).length + 1)
      ((swapH l 1 l.length).dropLast) 1).1.length = l.length - 1
    rw [percolateDownAux_length, hlen2]
  · intro i hi
    exact sheap i (inSubtree_one hi)

/-- C5: `top` signals the out-of-range error exactly when the queue holds zero
elements, and on a non-empty queue returns the element at storage offset 0;
being a pure function of the storage, it has no side effects. -/
theorem top_spec (l : List T) :
    ((topPQ l = Except.error "std:out_of_range") ↔ l.length = 0) ∧
    (∀ x, topPQ l = Except.ok x ↔ (l.length ≠ 0 ∧ l.get? 0 = some x)) := by
  by_cases h : l.length = 0
  · have ht : topPQ l = Except.error "std:out_of_range" := by
      unfold topPQ
      rw [if_neg (by omega)]
    refine ⟨⟨fun _ => h, fun _ => ht⟩, ?_⟩
    intro x
    constructor
    · intro hx
      rw [ht] at hx
      cases hx
    · rintro ⟨hne2, _⟩
      exact absurd h hne2
  · have h0 : 0 < l.length := by omega
    have hg : l.get? 0 = some (l.get ⟨0, h0⟩) := List.get?_eq_get h0
    have hnth : nth l 1 = l.get ⟨0, h0⟩ := by
      show (l.get? (1 - 1)).getD default = l.get ⟨0, h0⟩
      rw [show (1 - 1 : Nat) = 0 from rfl, hg]
      rfl
    have ht : topPQ l = Except.ok (nth l 1) := by
      unfold topPQ
      rw [if_pos h]
    constructor
    · constructor
      · intro hx
        rw [ht] at hx
        cases hx
      · intro hx
        exact absurd hx h
    · intro x
      rw [ht]
      constructor
      · intro hx
        have hx2 : nth l 1 = x := by
          simpa using hx
        exact ⟨h, by rw [hg, ← hnth, hx2]⟩
      · rintro ⟨_, hx⟩
        rw [hg] at hx
        have hx2 : l.get ⟨0, h0⟩ = x := by
          simpa using hx
        rw [hnth, hx2]

/-- C3: in `percolateDown(i)` for every queue state and 1-based heap index
`i ≥ 1`: when the right child `2i+1` is within bounds, the larger-child
candidate is the right child exactly when `compare(left, right)` holds (ties
favor the left child); when only the left child `2i` exists it is the only
candidate; a swap occurs exactly when the candidate is within bounds and
outranks the current node, in which case the step continues from the
candidate; otherwise the step stops with the buffer unchanged. -/
theorem percolateDown_step_spec (c : T → T → Bool) (l : List T) (i : Nat)
    (hi : 1 ≤ i) :
    (2 * i + 1 ≤ l.length →
      indexBigger c l i =
        (if c (nth l (2 * i)) (nth l (2 * i + 1)) = true then 2 * i + 1
          else 2 * i)) ∧
    (2 * i ≤ l.length → l.length < 2 * i + 1 → indexBigger c l i = 2 * i) ∧
    ((percolateDown c l i).2 = true ↔
      (indexBigger c l i ≤ l.length ∧
        c (nth l i) (nth l (indexBigger c l i)) = true)) ∧
    ((percolateDown c l i).2 = false → (percolateDown c l i).1 = l) ∧
    (indexBigger c l i ≤ l.length →
      c (nth l i) (nth l (indexBigger c l i)) = true →
      percolateDown c l i =
        ((percolateDown c (swapH l i (indexBigger c l i))
          (indexBigger c l i)).1, true)) := by
  have hunfold : percolateDownAux c (l.length + 1) l i =
      if indexBigger c l i ≤ l.length ∧
          c (nth l i) (nth l (indexBigger c l i)) = true then
        ((percolateDownAux c l.length (swapH l i (indexBigger c l i))
          (indexBigger c l i)).1, true)
      else (l, false) := rfl
  refine ⟨?_, ?_, ?_, ?_, ?_⟩
  · intro hR
    by_cases hc : c (nth l (2 * i)) (nth l (2 * i + 1)) = true
    · rw [indexBigger, if_pos ⟨hR, hc⟩, if_pos hc]
    · rw [indexBigger, if_neg (by rintro ⟨_, h2⟩; exact hc h2), if_neg hc]
  · intro hL hR
    rw [indexBigger, if_neg (by rintro ⟨h2, _⟩; omega)]
  · constructor
    · intro h2
      by_cases hg : indexBigger c l i ≤ l.length ∧
          c (nth l i) (nth l (indexBigger c l i)) = true
      · exact hg
      · unfold percolateDown at h2
        rw [hunfold, if_neg hg] at h2
        cases h2
    · intro hg
      unfold percolateDown
      rw [hunfold, if_pos hg]
  · intro h2
    by_cases hg : indexBigger c l i ≤ l.length ∧
        c (nth l i) (nth l (indexBigger c l i)) = true
    · unfold percolateDown at h2
      rw [hunfold, if_pos hg] at h2
      cases h2
    · unfold percolateDown
      rw [hunfold, if_neg hg]
  · intro h1 h2
    have hb := indexBigger_ge c l i
    have hf1 : (swapH l i (indexBigger c l i)).length <
        2 ^ l.length * indexBigger c l i := by
      rw [length_swapH]
      have hl2 := Nat.lt_two_pow l.length
      have hm : (2 : Nat) ^ l.length * 1 ≤ 2 ^ l.length * indexBigger c l i :=
        Nat.mul_le_mul_left _ (by omega)
      omega
    have hf2 : (swapH l i (indexBigger c l i)).length <
        2 ^ ((swapH l i (indexBigger c l i)).length + 1) *
          indexBigger c l i := by
      rw [length_swapH]
      have hl2 := Nat.lt_two_pow l.length
      have h3 : (2 : Nat) ^ l.length ≤ 2 ^ (l.length + 1) :=
        Nat.pow_le_pow_right (by omega) (by omega)
      have hm : (2 : Nat) ^ (l.length + 1) * 1 ≤
          2 ^ (l.length + 1) * indexBigger c l i :=
        Nat.mul_le_mul_left _ (by omega)
      omega
    unfold percolateDown
    rw [hunfold, if_pos ⟨h1, h2⟩,
      percolateDownAux_fuel c l.length
        ((swapH l i (indexBigger c l i)).length + 1)
        (swapH l i (indexBigger c l i)) (indexBigger c l i)
        (by omega) hf1 hf2]

/-- Witness for C3 at a concrete input. -/
theorem percolateDown_step_spec_witness :
    (2 * 1 + 1 ≤ ([1, 2, 3] : List Nat).length →
      indexBigger natLt [1, 2, 3] 1 =
        (if natLt (nth [1, 2, 3] (2 * 1)) (nth [1, 2, 3] (2 * 1 + 1)) = true
          then 2 * 1 + 1 else 2 * 1)) ∧
    (2 * 1 ≤ ([1, 2, 3] : List Nat).length →
      ([1, 2, 3] : List Nat).length < 2 * 1 + 1 →
      indexBigger natLt [1, 2, 3] 1 = 2 * 1) ∧
    ((percolateDown natLt [1, 2, 3] 1).2 = true ↔
      (indexBigger natLt [1, 2, 3] 1 ≤ ([1, 2, 3] : List Nat).length ∧
        natLt (nth [1, 2, 3] 1)
          (nth [1, 2, 3] (indexBigger natLt [1, 2, 3] 1)) = true)) ∧
    ((percolateDown natLt [1, 2, 3] 1).2 = false →
      (percolateDown natLt [1, 2, 3] 1).1 = [1, 2, 3]) ∧
    (indexBigger natLt [1, 2, 3] 1 ≤ ([1, 2, 3] : List Nat).length →
      natLt (nth [1, 2, 3] 1)
        (nth [1, 2, 3] (indexBigger natLt [1, 2, 3] 1)) = true →
      percolateDown natLt [1, 2, 3] 1 =
        ((percolateDown natLt
          (swapH [1, 2, 3] 1 (indexBigger natLt [1, 2, 3] 1))
          (indexBigger natLt [1, 2, 3] 1)).1, true)) :=
  percolateDown_step_spec natLt [1, 2, 3] 1 (by decide)

/-- C9: with the comparator and buffer arbitrary and `i ≥ 1`, the recursion
of `percolateDown` terminates: any fuel with `l.length < 2^fuel * i` (fuel at
least the height of the subtree, since the index at least doubles at each
recursive call) already computes the fixed result; the candidate index is at
least `2 i`; and as soon as the candidate exceeds the size the step stops
with no change. -/
theorem percolateDown_terminates (c : T → T → Bool) (l : List T) (i fuel : Nat)
    (hi : 1 ≤ i) :
    (l.length < 2 ^ fuel * i →
      percolateDownAux c fuel l i = percolateDown c l i) ∧
    2 * i ≤ indexBigger c l i ∧
    (l.length < 2 * i → percolateDown c l i = (l, false)) := by
  refine ⟨?_, indexBigger_ge c l i, ?_⟩
  · intro hf
    unfold percolateDown
    apply percolateDownAux_fuel c fuel (l.length + 1) l i hi hf
    have h2 := Nat.lt_two_pow l.length
    have h3 : (2 : Nat) ^ l.length ≤ 2 ^ (l.length + 1) :=
      Nat.pow_le_pow_right (by omega) (by omega)
    have hm : (2 : Nat) ^ (l.length + 1) * 1 ≤ 2 ^ (l.length + 1) * i :=
      Nat.mul_le_mul_left _ (by omega)
    omega
  · intro hlt
    have hb := indexBigger_ge c l i
    have hunfold : percolateDownAux c (l.length + 1) l i =
        if indexBigger c l i ≤ l.length ∧
            c (nth l i) (nth l (indexBigger c l i)) = true then
          ((percolateDownAux c l.length (swapH l i (indexBigger c l i))
            (indexBigger c l i)).1, true)
        else (l, false) := rfl
    unfold percolateDown
    rw [hunfold, if_neg]
    rintro ⟨h2, _⟩
    omega

/-- Witness for C9 at a concrete input. -/
theorem percolateDown_terminates_witness :
    (([2, 1] : List Nat).length < 2 ^ 3 * 1 →
      percolateDownAux natLt 3 [2, 1] 1 = percolateDown natLt [2, 1] 1) ∧
    2 * 1 ≤ indexBigger natLt [2, 1] 1 ∧
    (([2, 1] : List Nat).length < 2 * 1 →
      percolateDown natLt [2, 1] 1 = ([2, 1], false)) :=
  percolateDown_terminates natLt [2, 1] 1 3 (by decide)

/-- C4: `heapify` runs the downward-restoration step for the heap indices
`size/2 + 1` down to `1` — in particular for every heap index from the
midpoint `size/2` down to the first index — and afterwards (comparator a
strict weak order) the whole buffer satisfies the max-heap invariant. -/
theorem heapify_spec (c : T → T → Bool)
    (hA : ∀ a b, c a b = true → c b a = false)
    (hN : ∀ a b d, c a b = false → c b d = false → c a d = false)
    (l : List T) :
    heapifyPQ c l =
      (heapifyIndices l.length).foldl
        (fun acc k => (percolateDown c acc k).1) l ∧
    (∀ i, 1 ≤ i → i ≤ l.length / 2 → i ∈ heapifyIndices l.length) ∧
    IsHeap c (heapifyPQ c l) := by
  refine ⟨?_, ?_, (heapify_correct_core c hA hN l).2⟩
  · unfold heapifyPQ heapifyIndices
    exact heapifyFrom_foldl c (l.length / 2 + 1) l
  · intro i hi1 hi2
    unfold heapifyIndices
    simp only [List.mem_map, List.mem_reverse, List.mem_range]
    exact ⟨i - 1, by omega, by omega⟩

/-- Witness for C4 at a concrete input. -/
theorem heapify_spec_witness :
    heapifyPQ natLt [1, 4, 2, 8, 5] =
      (heapifyIndices ([1, 4, 2, 8, 5] : List Nat).length).foldl
        (fun acc k => (percolateDown natLt acc k).1) [1, 4, 2, 8, 5] ∧
    (∀ i, 1 ≤ i → i ≤ ([1, 4, 2, 8, 5] : List Nat).length / 2 →
      i ∈ heapifyIndices ([1, 4, 2, 8, 5] : List Nat).length) ∧
    IsHeap natLt (heapifyPQ natLt [1, 4, 2, 8, 5]) :=
  heapify_spec natLt natLt_asymm natLt_negtrans [1, 4, 2, 8, 5]

/-- C8: `heapify` is idempotent (comparator a strict weak order): running it
twice produces the same element order as running it once, because a second
pass over an already-heap-ordered buffer swaps nothing. -/
theorem heapify_idempotent (c : T → T → Bool)
    (hA : ∀ a b, c a b = true → c b a = false)
    (hN : ∀ a b d, c a b = false → c b d = false → c a d = false)
    (l : List T) :
    heapifyPQ c (heapifyPQ c l) = heapifyPQ c l := by
  obtain ⟨_, hheap⟩ := heapify_correct_core c hA hN l
  show heapifyFrom c ((heapifyPQ c l).length / 2 + 1) (heapifyPQ c l) =
    heapifyPQ c l
  exact heapifyFrom_noop c (heapifyPQ c l) hheap _

/-- Witness for C8 at a concrete input. -/
theorem heapify_idempotent_witness :
    heapifyPQ natLt (heapifyPQ natLt [5, 1, 9, 3, 7]) =
      heapifyPQ natLt [5, 1, 9, 3, 7] :=
  heapify_idempotent natLt natLt_asymm natLt_negtrans [5, 1, 9, 3, 7]

/-- Witness for C2 at a concrete input. -/
theorem pop_spec_witness :
    popPQ natLt [3, 2, 1] =
      some ((percolateDown natLt
        ((swapH [3, 2, 1] 1 ([3, 2, 1] : List Nat).length).dropLast) 1).1) ∧
    ((percolateDown natLt
      ((swapH [3, 2, 1] 1 ([3, 2, 1] : List Nat).length).dropLast) 1).1).length =
      ([3, 2, 1] : List Nat).length - 1 ∧
    IsHeap natLt ((percolateDown natLt
      ((swapH [3, 2, 1] 1 ([3, 2, 1] : List Nat).length).dropLast) 1).1) :=
  pop_spec natLt natLt_asymm natLt_negtrans [3, 2, 1] (by decide)
    ((isHeapB_iff natLt [3, 2, 1]).mp (by decide))

/-- C1 (failing-input evaluation): the storage `[5, 3]` is a valid max-heap
under the default comparator, yet `push(10)` leaves the buffer `[5, 3, 10]`,
in which the new leaf at heap index 3 outranks its parent at heap index 1 —
push does not restore the heap invariant (its correction walk starts at
`(new_size + 1) / 2 = 2` and never compares the new leaf with its parent). -/
theorem push_breaks_heap_invariant :
    IsHeap natLt [5, 3] ∧
    pushPQ natLt [5, 3] 10 = [5, 3, 10] ∧
    ¬ IsHeap natLt (pushPQ natLt [5, 3] 10) := by
  refine ⟨(isHeapB_iff natLt [5, 3]).mp (by decide), rfl, ?_⟩
  intro h
  have hb := (isHeapB_iff natLt (pushPQ natLt [5, 3] 10)).mpr h
  exact absurd hb (by decide)

/-- C6 (failing-input evaluation): `pop` on an empty queue skips the guarded
swap but still invokes `pop_back` on the already-empty storage, which is
outside the storage collaborator contract (modelled as `none`); it is neither
a safe no-op nor the empty-container error. -/
theorem pop_empty_outside_contract :
    popPQ natLt ([] : List Nat) = none ∧
    vector_pop_back ([] : List Nat) = none :=
  ⟨rfl, rfl⟩

/-- C7 (failing-input evaluation): after an append that makes the new size 3,
push's correction walk starts at `(3 + 1) / 2 = 2`, not at the parent
`3 / 2 = 1` of the newly appended leaf. -/
theorem push_walk_start_off_by_one :
    pushStartIndex 3 = 2 ∧ 3 / 2 = 1 ∧ pushStartIndex 3 ≠ 3 / 2 := by
  decide

/-- C10 (failing-input evaluation): on storage of size 1, the heapify loop of
the draft variant src/priority_queue.h passes heap index 0 to
`percolateDown`, whose guarded first comparison then reads storage offset
`(size_t)(2*0 - 1) = 2^64 - 1`, far outside the bounds `0 .. size - 1`. -/
theorem heapifyH_heap_index_zero_oob :
    (0 ∈ heapifyHIndices 1) ∧
    (sub64 (2 * 0) 1 ∈ pdH_reads 1 0) ∧
    ¬ sub64 (2 * 0) 1 < 1 := by
  refine ⟨by decide, by decide, by decide⟩

end PQVerif
